import Mathlib

/-!
Verification of the cost-analysis and phonon-velocity components of this
repository.

Part 1 models the cost-decomposition core (`CostDB` / `CostAnalyzer`).
The module `pymatgen/analysis/cost.py` itself is not present in the source
excerpt (only its test file is), so the cost definitions below are modelled
from the specification: compositions over a finite element universe,
cost databases as entry lists with the elemental fallback basis, and the
analyzer's result characterised as the optimal value of the spec's
minimum-cost linear decomposition (a mix of candidate entries with
non-negative amounts that balances every element of the target).

Part 2 embeds `pymatgen/phonon/velocity.py`, which is present in the
source: the `VelocityPhononBandStructure` serialization pair
`as_dict`/`from_dict`, the `VelocityPhononBSPlotter` constructor type
check, and the colour loop of `VelocityPlotter.get_plot`.
-/

namespace CostSpec

/-- Element universe used by the cost claims: the elements appearing in the
spec's databases and scenarios (Ag, O, Pt, Mg). -/
inductive Elem where
  | Ag
  | O
  | Pt
  | Mg
deriving DecidableEq

/-- All elements of the universe, in a fixed order. -/
def elemList : List Elem := [Elem.Ag, Elem.O, Elem.Pt, Elem.Mg]

theorem mem_elemList (e : Elem) : e ∈ elemList := by
  cases e <;> simp [elemList]

theorem elemList_nodup : elemList.Nodup := by
  simp [elemList]

instance : Fintype Elem := Fintype.ofList elemList mem_elemList

/-- Modelled from the spec: a composition is a mapping from element symbol
to a stoichiometric amount (per formula unit). -/
abbrev Comp := Elem → ℚ

instance : DecidableEq Comp := fun f g =>
  decidable_of_iff (∀ e ∈ elemList, f e = g e)
    ⟨fun h => funext fun e => h e (mem_elemList e), fun h e _ => by rw [h]⟩

/-- Sum of a rational-valued function over the whole element universe. -/
def sumOverElems (g : Elem → ℚ) : ℚ := (elemList.map g).sum

/-- Modelled from the spec: standard atomic weights (grams per mole) of the
element universe, as provided by the external formula-parsing collaborator. -/
def atomicMass : Elem → ℚ
  | Elem.Ag => 107.8682
  | Elem.O => 15.9994
  | Elem.Pt => 195.084
  | Elem.Mg => 24.305

/-- Molar mass of a composition in kilograms per mole: sum of element
atomic weights times amounts, converted from grams. -/
def molarMassKg (c : Comp) : ℚ := sumOverElems (fun e => c e * atomicMass e) / 1000

/-- Modelled from the spec: a `CostEntry` is a (composition, unit cost per kg)
pair. Provenance (name/source) is ignored as it plays no role in costing. -/
structure CostEntry where
  comp : Comp
  cost_per_kg : ℚ
deriving DecidableEq

/-- Cost of one mole of an entry's composition: its per-kg price times its
molar mass in kg. -/
def costPerMol (ent : CostEntry) : ℚ := ent.cost_per_kg * molarMassKg ent.comp

/-- Modelled from the spec: a `CostDB` owns a collection of `CostEntry`
(plus the implicit elemental fallback basis, applied in `candidates`). -/
structure CostDB where
  entries : List CostEntry

/-- The composition that is the pure element `e`. -/
def pureComp (e : Elem) : Comp := fun x => if x = e then 1 else 0

/-- Modelled from the spec: the built-in static elemental price table
(reference market price per kg for every element), the universal fallback
basis. The module bundling the table is not in the source excerpt; the
values are representative market prices (platinum dominant). -/
def elementPrice : Elem → ℚ
  | Elem.Ag => 521
  | Elem.O => 0.66
  | Elem.Pt => 30000
  | Elem.Mg => 2.32

/-- The implicit fallback entry for element `e`. -/
def fallbackEntry (e : Elem) : CostEntry := ⟨pureComp e, elementPrice e⟩

/-- Modelled from the spec: a composition `s` is a sub-composition of `t`
when every element occurring in `s` also occurs in `t`. -/
def IsSubComp (s t : Comp) : Prop := ∀ e, s e ≠ 0 → t e ≠ 0

instance (s t : Comp) : Decidable (IsSubComp s t) :=
  decidable_of_iff (∀ e ∈ elemList, s e ≠ 0 → t e ≠ 0)
    ⟨fun h e => h e (mem_elemList e), fun h e _ => h e⟩

/-- The constituent elements of a target composition. -/
def constituents (t : Comp) : List Elem := elemList.filter (fun e => decide (t e ≠ 0))

/-- Whether the database has a direct entry for the pure element `e`. -/
def hasPureEntry (db : CostDB) (e : Elem) : Bool :=
  (db.entries.find? (fun ent => decide (ent.comp = pureComp e))).isSome

/-- Modelled from the spec: the candidate basis for decomposing `t` — every
database entry that is a sub-composition of `t`, plus the fallback entry of
every constituent element that has no direct entry in the database. -/
def candidates (db : CostDB) (t : Comp) : List CostEntry :=
  db.entries.filter (fun ent => decide (IsSubComp ent.comp t))
    ++ (constituents t).filterMap
      (fun e => if hasPureEntry db e then none else some (fallbackEntry e))

/-- A mix is a weighted list of cost entries (the LP's decision variables,
restricted to its support). -/
abbrev Mix := List (ℚ × CostEntry)

/-- Total amount of element `e` contributed by a mix. -/
def mixAmount (m : Mix) (e : Elem) : ℚ := (m.map (fun p => p.1 * p.2.comp e)).sum

/-- Total cost of a mix: sum of amount times per-mol cost over its entries. -/
def mixCost (m : Mix) : ℚ := (m.map (fun p => p.1 * costPerMol p.2)).sum

/-- Modelled from the spec: a feasible decomposition of target `t` under
database `db` — non-negative amounts of candidate entries such that, for
every element of the target, the contributed amount equals the required
amount. -/
def IsDecomposition (db : CostDB) (t : Comp) (m : Mix) : Prop :=
  (∀ p ∈ m, 0 ≤ p.1 ∧ p.2 ∈ candidates db t) ∧ ∀ e, t e ≠ 0 → mixAmount m e = t e

/-- Modelled from the spec: `get_cost_per_mol db t` returns `c` exactly when
`c` is the optimal objective value of the minimum-cost linear decomposition
of `t`: attained by some feasible decomposition and a lower bound of all. -/
def IsCostPerMol (db : CostDB) (t : Comp) (c : ℚ) : Prop :=
  (∃ m, IsDecomposition db t m ∧ mixCost m = c) ∧
    ∀ m, IsDecomposition db t m → c ≤ mixCost m

/-- Modelled from the spec: `get_cost_per_kg db t` returns the cost per mol
divided by the molar mass in kg. -/
def IsCostPerKg (db : CostDB) (t : Comp) (c : ℚ) : Prop :=
  ∃ cm, IsCostPerMol db t cm ∧ c = cm / molarMassKg t

/-- Total weight a mix places on one particular entry. -/
def weightOn (m : Mix) (ent : CostEntry) : ℚ :=
  ((m.filter (fun p => decide (p.2 = ent))).map (fun p => p.1)).sum

/-- Modelled from the spec: result of the analyzer: either a cost value or
an explicit computation error (never a silent zero or NaN). -/
inductive CostResult where
  | value (c : ℚ)
  | compError

/-- Modelled from the spec: the LP is infeasible when no decomposition of
the target exists. -/
def LPInfeasible (db : CostDB) (t : Comp) : Prop := ¬ ∃ m, IsDecomposition db t m

/-- Modelled from the spec: the analyzer returns the optimal cost when the
LP has one, and the explicit computation error exactly when the LP is
infeasible. -/
inductive AnalyzerReturns (db : CostDB) (t : Comp) : CostResult → Prop where
  | value (c : ℚ) (h : IsCostPerMol db t c) : AnalyzerReturns db t (CostResult.value c)
  | err (h : LPInfeasible db t) : AnalyzerReturns db t CostResult.compError

/-- The all-elements mix: for each constituent element of `t`, take the
required amount of a chosen pure-element candidate. This is the spec's
trivial all-elements solution. -/
def pureMix (t : Comp) (f : Elem → CostEntry) : Mix :=
  (constituents t).map (fun e => (t e, f e))

/-- Candidate replacement used when a database is extended by a new entry:
a fallback candidate displaced by the new entry (the new entry is a direct
entry for that pure element) maps to the new entry, every other candidate
maps to itself. -/
def replaceCand (db : CostDB) (t : Comp) (newEnt : CostEntry) (cand : CostEntry) : CostEntry :=
  if ∃ e, t e ≠ 0 ∧ hasPureEntry db e = false ∧ cand = fallbackEntry e ∧ newEnt.comp = pureComp e
  then newEnt else cand

/-- The Ag entry of the first test database (3 currency units per kg). -/
def agEntry : CostEntry := ⟨pureComp Elem.Ag, 3⟩

/-- The O entry of the first test database (1 currency unit per kg). -/
def oEntry : CostEntry := ⟨pureComp Elem.O, 1⟩

/-- The composition AgO (one Ag, one O). -/
def AgO : Comp := fun e => if e = Elem.Ag ∨ e = Elem.O then 1 else 0

/-- The composition PtO (one Pt, one O). -/
def PtO : Comp := fun e => if e = Elem.Pt ∨ e = Elem.O then 1 else 0

/-- The composition MgO (one Mg, one O). -/
def MgO : Comp := fun e => if e = Elem.Mg ∨ e = Elem.O then 1 else 0

/-- The direct AgO entry of the second test database, priced at 1.5 per kg,
cheaper than elemental decomposition. -/
def agoEntry : CostEntry := ⟨AgO, 3 / 2⟩

/-- Modelled from the spec: the first test database, `costdb_1.csv`,
holding Ag at 3 per kg and O at 1 per kg. -/
def costdb1 : CostDB := ⟨[agEntry, oEntry]⟩

/-- Modelled from the spec: the second test database, `costdb_2.csv`,
extending the first with a direct AgO entry at 1.5 per kg. -/
def costdb2 : CostDB := ⟨[agEntry, oEntry, agoEntry]⟩

/-- Modelled from the spec: the built-in elemental-only database
`CostDBElements`, one entry per element at the reference market price. -/
def CostDBElements : CostDB := ⟨elemList.map fallbackEntry⟩

/-- Effective per-kg elemental cost basis of the first test database: its
direct entries for Ag and O, the fallback price for the other elements. -/
def k1 : Elem → ℚ
  | Elem.Ag => 3
  | Elem.O => 1
  | e => elementPrice e

end CostSpec

namespace VelocitySpec

/-- Stand-in for the pymatgen `Structure` collaborator (out of scope in the
spec): an opaque payload whose `as_dict`/`from_dict` pair is treated as a
faithful inverse pair, so serialization is the identity on this value. -/
structure PStruct where
  sites : List String

/-- State of a `Velocity` object (`velocity.py`): frequencies and group
velocities on a regular grid, stored as matrices of shape
(3*len(structure), len(qpoints)); the remaining constructor arguments are
kept but play no role in the plotting claim. -/
structure Velocity where
  qpoints : List (List ℚ)
  velocities : List (List ℚ)
  frequencies : List (List ℚ)
  multiplicities : Option (List ℚ)
  struct : Option PStruct
  lattice : Option (List (List ℚ))

/-- Colour assigned to plotted point `i` in `VelocityPlotter.get_plot`:
`(1/n * i, 0, 1/n * (n - i))` where `n = len(ys) - 1`. -/
def plotColor (n : ℤ) (i : ℕ) : ℚ × ℚ × ℚ :=
  (1 / (n : ℚ) * i, 0, 1 / (n : ℚ) * ((n : ℚ) - i))

/-- The colour-loop core of `VelocityPlotter.get_plot`: `xs` and `ys` are
the flattened (row-major) frequency and velocity arrays, `factor` is the
unit conversion factor `freq_units(units).factor`, `n = len(ys) - 1`, and
each plotted point gets its `plotColor`. Python float division `1.0 / n`
raises `ZeroDivisionError` when `n = 0`, which happens on the first loop
iteration whenever the zip of `xs` and `ys` is non-empty, modelled by the
explicit error branch. -/
def VelocityPlotter.get_plot (v : Velocity) (factor : ℚ) :
    Except String (List (ℚ × ℚ × (ℚ × ℚ × ℚ))) :=
  if ((v.velocities.flatten.length : ℤ) - 1 = 0
      ∧ ((v.frequencies.flatten.map (fun x => x * factor)).zip v.velocities.flatten) ≠ [])
  then Except.error "ZeroDivisionError: float division by zero"
  else
    Except.ok (((v.frequencies.flatten.map (fun x => x * factor)).zip
        v.velocities.flatten).enum.map
      (fun q => (q.2.1, q.2.2, plotColor ((v.velocities.flatten.length : ℤ) - 1) q.1)))

/-- State stored by the `VelocityPhononBandStructure` constructor: qpoint
fractional coordinates, the frequency matrix `bands`, the group-velocity
matrix (stored under the source's attribute name `velocites`), the
reciprocal-lattice matrix, the complex eigendisplacements (flattened, one
(real, imaginary) pair per value; the claim restricts to band structures
constructed with non-None eigendisplacements, so the field is total), the
label-to-fractional-coordinates dictionary, and the optional structure. -/
structure VelocityPhononBandStructure where
  qpoints : List (List ℚ)
  bands : List (List ℚ)
  velocites : List (List ℚ)
  lattice_rec : List (List ℚ)
  eigendisplacements : List (ℚ × ℚ)
  labels_dict : List (String × List ℚ)
  struct : Option PStruct

/-- The dict produced by `VelocityPhononBandStructure.as_dict`: module and
class tags, the reciprocal-lattice matrix, qpoint fractional coordinates,
the bands, the label dictionary (label to fractional coordinates), the
eigendisplacements split into real and imaginary lists, the velocities,
and the structure value, present (`some`) exactly when the `"structure"`
key was written. -/
structure VPBSDict where
  module : String
  cls : String
  lattice_rec : List (List ℚ)
  qpoints : List (List ℚ)
  bands : List (List ℚ)
  labels_dict : List (String × List ℚ)
  eigendisplacements_real : List ℚ
  eigendisplacements_imag : List ℚ
  velocities : List (List ℚ)
  struct : Option PStruct

/-- Embedding of `VelocityPhononBandStructure.as_dict`: writes the lattice
matrix, the qpoint fractional coordinates, the bands, the label
coordinates, the eigendisplacements split into real and imaginary parts,
the velocities, and the structure key iff a structure is held (`if
self.structure:` — a held pymatgen structure is truthy, the collaborator
class being out of scope its possible emptiness is not modelled). -/
def VelocityPhononBandStructure.as_dict (b : VelocityPhononBandStructure) : VPBSDict :=
  { module := "pymatgen.phonon.velocity"
    cls := "VelocityPhononBandStructure"
    lattice_rec := b.lattice_rec
    qpoints := b.qpoints
    bands := b.bands
    labels_dict := b.labels_dict
    eigendisplacements_real := b.eigendisplacements.map Prod.fst
    eigendisplacements_imag := b.eigendisplacements.map Prod.snd
    velocities := b.velocites
    struct := b.struct }

/-- Embedding of `VelocityPhononBandStructure.from_dict`: rebuilds the
lattice from the stored matrix, recombines the eigendisplacements from the
real and imaginary lists, reads the structure iff the key is present, and
passes qpoints, bands, velocities and labels to the constructor. -/
def VelocityPhononBandStructure.from_dict (d : VPBSDict) : VelocityPhononBandStructure :=
  { qpoints := d.qpoints
    bands := d.bands
    velocites := d.velocities
    lattice_rec := d.lattice_rec
    eigendisplacements := d.eigendisplacements_real.zip d.eigendisplacements_imag
    labels_dict := d.labels_dict
    struct := d.struct }

/-- State of a `VelocityPhononBandStructureSymmLine` (a
`VelocityPhononBandStructure` along symmetry lines; the branch/distance
data recomputed by `_reuse_init` lives in the out-of-scope parent class). -/
structure VelocityPhononBandStructureSymmLine extends VelocityPhononBandStructure

/-- The possible arguments to `VelocityPhononBSPlotter.__init__` in the
claims: a plain `VelocityPhononBandStructure` (e.g. on a uniform grid) or
a `VelocityPhononBandStructureSymmLine` instance. -/
inductive PhononBSObject where
  | plain (bs : VelocityPhononBandStructure)
  | symmLine (bs : VelocityPhononBandStructureSymmLine)

/-- A constructed `VelocityPhononBSPlotter`, holding its band structure. -/
structure VelocityPhononBSPlotter where
  bs : VelocityPhononBandStructureSymmLine

/-- Embedding of `VelocityPhononBSPlotter.__init__`: raises `ValueError`
(the error branch) unless the argument is a
`VelocityPhononBandStructureSymmLine` instance, in which case the plotter
is constructed normally around it. -/
def VelocityPhononBSPlotter.init (bs : PhononBSObject) :
    Except String VelocityPhononBSPlotter :=
  match bs with
  | PhononBSObject.symmLine s => Except.ok ⟨s⟩
  | PhononBSObject.plain _ =>
      Except.error "VelocityPhononBSPlotter only works with VelocityPhononBandStructureSymmLine objects."

end VelocitySpec

namespace CostSpec

theorem sum_map_zero {α : Type} (l : List α) : (l.map (fun _ => (0 : ℚ))).sum = 0 := by
  induction l with
  | nil => rfl
  | cons b l ih => simp [ih]

theorem sum_map_add {α : Type} (l : List α) (u v : α → ℚ) :
    (l.map (fun x => u x + v x)).sum = (l.map u).sum + (l.map v).sum := by
  induction l with
  | nil => simp
  | cons b l ih => simp only [List.map_cons, List.sum_cons, ih]; ring

theorem sum_map_ite_of_not_mem {α : Type} [DecidableEq α] {l : List α} {a : α}
    (ha : a ∉ l) (g : α → ℚ) :
    (l.map (fun x => if a = x then g x else 0)).sum = 0 := by
  induction l with
  | nil => rfl
  | cons b l ih =>
    simp only [List.map_cons, List.sum_cons]
    rw [if_neg (by rintro rfl; exact ha (List.mem_cons_self _ _)),
      ih (fun h => ha (List.mem_cons_of_mem _ h))]
    ring

theorem sum_map_ite {α : Type} [DecidableEq α] {l : List α} (hnd : l.Nodup) {a : α}
    (ha : a ∈ l) (g : α → ℚ) :
    (l.map (fun x => if a = x then g x else 0)).sum = g a := by
  induction l with
  | nil => cases ha
  | cons b l ih =>
    rcases List.mem_cons.mp ha with rfl | hmem
    · simp only [List.map_cons, List.sum_cons]
      rw [if_pos trivial, sum_map_ite_of_not_mem (List.nodup_cons.mp hnd).1 g]
      ring
    · have hb : a ≠ b := by rintro rfl; exact (List.nodup_cons.mp hnd).1 hmem
      simp only [List.map_cons, List.sum_cons]
      rw [if_neg hb, ih (List.nodup_cons.mp hnd).2 hmem]
      ring

theorem sum_map_filter_of_vanish {α : Type} (l : List α) (p : α → Bool) (g : α → ℚ)
    (h : ∀ x ∈ l, p x = false → g x = 0) :
    ((l.filter p).map g).sum = (l.map g).sum := by
  induction l with
  | nil => rfl
  | cons b l ih =>
    by_cases hb : p b = true
    · rw [List.filter_cons_of_pos hb]
      simp only [List.map_cons, List.sum_cons]
      rw [ih (fun x hx hpx => h x (List.mem_cons_of_mem _ hx) hpx)]
    · rw [List.filter_cons_of_neg (by simpa using hb)]
      simp only [List.map_cons, List.sum_cons]
      rw [ih (fun x hx hpx => h x (List.mem_cons_of_mem _ hx) hpx),
        h b (List.mem_cons_self _ _) (by simpa using hb)]
      ring

theorem weightOn_nil (ent : CostEntry) : weightOn [] ent = 0 := rfl

theorem weightOn_cons (p : ℚ × CostEntry) (m : Mix) (ent : CostEntry) :
    weightOn (p :: m) ent = (if p.2 = ent then p.1 else 0) + weightOn m ent := by
  by_cases h : p.2 = ent
  · simp [weightOn, List.filter_cons, h]
  · simp [weightOn, List.filter_cons, h]

theorem weightOn_nonneg {m : Mix} (h : ∀ p ∈ m, 0 ≤ p.1) (ent : CostEntry) :
    0 ≤ weightOn m ent := by
  apply List.sum_nonneg
  intro x hx
  obtain ⟨p, hp, rfl⟩ := List.mem_map.mp hx
  exact h p (List.mem_of_mem_filter hp)

theorem mix_group {cs : List CostEntry} (hnd : cs.Nodup) {m : Mix}
    (hm : ∀ p ∈ m, p.2 ∈ cs) (f : CostEntry → ℚ) :
    (m.map (fun p => p.1 * f p.2)).sum = (cs.map (fun c => weightOn m c * f c)).sum := by
  induction m with
  | nil =>
    have hz : ∀ c ∈ cs, weightOn [] c * f c = 0 := fun c _ => by
      rw [weightOn_nil, zero_mul]
    symm
    rw [List.map_congr_left hz, sum_map_zero]
    rfl
  | cons p m ih =>
    simp only [List.map_cons, List.sum_cons]
    have hrw : ∀ c ∈ cs, weightOn (p :: m) c * f c
        = (if p.2 = c then p.1 * f c else 0) + weightOn m c * f c := by
      intro c _
      rw [weightOn_cons]
      by_cases h : p.2 = c
      · rw [if_pos h, if_pos h]; ring
      · rw [if_neg h, if_neg h]; ring
    rw [List.map_congr_left hrw, sum_map_add,
      sum_map_ite hnd (hm p (List.mem_cons_self _ _)) (fun c => p.1 * f c),
      ih (fun q hq => hm q (List.mem_cons_of_mem _ hq))]

theorem mixAmount_group {cs : List CostEntry} (hnd : cs.Nodup) {m : Mix}
    (hm : ∀ p ∈ m, p.2 ∈ cs) (e : Elem) :
    mixAmount m e = (cs.map (fun c => weightOn m c * c.comp e)).sum :=
  mix_group hnd hm (fun c => c.comp e)

theorem mixCost_group {cs : List CostEntry} (hnd : cs.Nodup) {m : Mix}
    (hm : ∀ p ∈ m, p.2 ∈ cs) :
    mixCost m = (cs.map (fun c => weightOn m c * costPerMol c)).sum :=
  mix_group hnd hm costPerMol

theorem IsCostPerMol_unique {db : CostDB} {t : Comp} {c c' : ℚ}
    (h : IsCostPerMol db t c) (h' : IsCostPerMol db t c') : c = c' := by
  obtain ⟨⟨m, hm, hc⟩, hlb⟩ := h
  obtain ⟨⟨m', hm', hc'⟩, hlb'⟩ := h'
  exact le_antisymm (hc' ▸ hlb m' hm') (hc ▸ hlb' m hm)

theorem mem_constituents {t : Comp} {e : Elem} : e ∈ constituents t ↔ t e ≠ 0 := by
  simp [constituents, List.mem_filter, mem_elemList]

theorem constituents_nodup (t : Comp) : (constituents t).Nodup :=
  elemList_nodup.filter _

theorem pureComp_apply (e x : Elem) : pureComp e x = if x = e then 1 else 0 := rfl

theorem isSubComp_pure {e : Elem} {t : Comp} (ht : t e ≠ 0) : IsSubComp (pureComp e) t := by
  intro x hx
  rcases eq_or_ne x e with rfl | hne
  · exact ht
  · simp [pureComp, hne] at hx

theorem mem_candidates_iff {db : CostDB} {t : Comp} {ent : CostEntry} :
    ent ∈ candidates db t ↔
      (ent ∈ db.entries ∧ IsSubComp ent.comp t) ∨
        ∃ e, t e ≠ 0 ∧ hasPureEntry db e = false ∧ ent = fallbackEntry e := by
  unfold candidates
  rw [List.mem_append, List.mem_filter, List.mem_filterMap]
  constructor
  · rintro (⟨h1, h2⟩ | ⟨e, he, hf⟩)
    · exact Or.inl ⟨h1, of_decide_eq_true h2⟩
    · right
      by_cases hp : hasPureEntry db e = true
      · rw [if_pos hp] at hf; cases hf
      · rw [if_neg hp] at hf
        exact ⟨e, mem_constituents.mp he, Bool.not_eq_true _ ▸ hp,
          (Option.some_inj.mp hf).symm⟩
  · rintro (⟨h1, h2⟩ | ⟨e, ht, hp, rfl⟩)
    · exact Or.inl ⟨h1, decide_eq_true h2⟩
    · refine Or.inr ⟨e, mem_constituents.mpr ht, ?_⟩
      rw [if_neg (by rw [hp]; exact Bool.false_ne_true)]

theorem entry_mem_candidates {db : CostDB} {t : Comp} {ent : CostEntry}
    (hent : ent ∈ db.entries) (hsub : IsSubComp ent.comp t) : ent ∈ candidates db t :=
  mem_candidates_iff.mpr (Or.inl ⟨hent, hsub⟩)

theorem fallback_mem_candidates {db : CostDB} {t : Comp} {e : Elem}
    (hp : hasPureEntry db e = false) (ht : t e ≠ 0) :
    fallbackEntry e ∈ candidates db t :=
  mem_candidates_iff.mpr (Or.inr ⟨e, ht, hp, rfl⟩)

theorem candidates_subcomp {db : CostDB} {t : Comp} {ent : CostEntry}
    (h : ent ∈ candidates db t) : IsSubComp ent.comp t := by
  rcases mem_candidates_iff.mp h with ⟨_, hsub⟩ | ⟨e, ht, _, rfl⟩
  · exact hsub
  · exact isSubComp_pure ht

theorem hasPureEntry_iff {db : CostDB} {e : Elem} :
    hasPureEntry db e = true ↔ ∃ ent ∈ db.entries, ent.comp = pureComp e := by
  unfold hasPureEntry
  rw [List.find?_isSome]
  constructor
  · rintro ⟨ent, hm, hp⟩
    exact ⟨ent, hm, of_decide_eq_true hp⟩
  · rintro ⟨ent, hm, hc⟩
    exact ⟨ent, hm, decide_eq_true hc⟩

theorem pureMix_isDecomposition {db : CostDB} {t : Comp} {f : Elem → CostEntry}
    (h0 : ∀ e, 0 ≤ t e)
    (hf : ∀ e, t e ≠ 0 → f e ∈ candidates db t ∧ (f e).comp = pureComp e) :
    IsDecomposition db t (pureMix t f) := by
  constructor
  · intro p hp
    obtain ⟨e, he, rfl⟩ := List.mem_map.mp hp
    exact ⟨h0 e, (hf e (mem_constituents.mp he)).1⟩
  · intro e' ht'
    unfold mixAmount pureMix
    rw [List.map_map]
    have hcong : ∀ e ∈ constituents t,
        ((fun p : ℚ × CostEntry => p.1 * p.2.comp e') ∘ (fun e => (t e, f e))) e
          = (fun e => if e' = e then t e else 0) e := by
      intro e he
      have hte := mem_constituents.mp he
      have hcomp := (hf e hte).2
      simp only [Function.comp]
      rw [hcomp]
      show t e * (if e' = e then 1 else 0) = if e' = e then t e else 0
      by_cases h : e' = e
      · rw [if_pos h, if_pos h, mul_one]
      · rw [if_neg h, if_neg h, mul_zero]
    rw [List.map_congr_left hcong,
      sum_map_ite (constituents_nodup t) (mem_constituents.mpr ht') t]

theorem pureMix_cost {t : Comp} {f : Elem → CostEntry} :
    mixCost (pureMix t f) = sumOverElems (fun e => t e * costPerMol (f e)) := by
  unfold mixCost pureMix sumOverElems constituents
  rw [List.map_map]
  exact sum_map_filter_of_vanish elemList _ _ (fun e _ hpe => by
    have ht : t e = 0 := not_not.mp (of_decide_eq_false hpe)
    show t e * costPerMol (f e) = 0
    rw [ht, zero_mul])

theorem cost_of_pure_candidates {db : CostDB} {t : Comp} {k : Elem → ℚ}
    (h0 : ∀ e, 0 ≤ t e)
    (h1 : ∀ ent ∈ candidates db t, ∃ e, ent = ⟨pureComp e, k e⟩)
    (h2 : ∀ e, t e ≠ 0 → (⟨pureComp e, k e⟩ : CostEntry) ∈ candidates db t) :
    IsCostPerMol db t (sumOverElems (fun e => t e * costPerMol ⟨pureComp e, k e⟩)) := by
  constructor
  · exact ⟨pureMix t (fun e => ⟨pureComp e, k e⟩),
      pureMix_isDecomposition h0 (fun e hte => ⟨h2 e hte, rfl⟩), pureMix_cost⟩
  · intro m hm
    have hnd : ((constituents t).map (fun e => (⟨pureComp e, k e⟩ : CostEntry))).Nodup := by
      refine (constituents_nodup t).map_on ?_
      intro x _ y _ hxy
      by_contra hne
      have hcf := congrFun (congrArg CostEntry.comp hxy) x
      show False
      rw [show (⟨pureComp x, k x⟩ : CostEntry).comp = pureComp x from rfl,
        show (⟨pureComp y, k y⟩ : CostEntry).comp = pureComp y from rfl] at hcf
      have h1x : pureComp x x = 1 := by rw [pureComp_apply, if_pos rfl]
      have h0x : pureComp y x = 0 := by rw [pureComp_apply, if_neg hne]
      rw [h1x, h0x] at hcf
      exact one_ne_zero hcf
    have hm_cs : ∀ p ∈ m, p.2 ∈ (constituents t).map (fun e => (⟨pureComp e, k e⟩ : CostEntry)) := by
      intro p hp
      obtain ⟨e, heq⟩ := h1 p.2 (hm.1 p hp).2
      have hsub := candidates_subcomp (hm.1 p hp).2
      rw [heq] at hsub
      have hte : t e ≠ 0 := hsub e (by
        show pureComp e e ≠ 0
        rw [pureComp_apply, if_pos rfl]
        exact one_ne_zero)
      exact List.mem_map.mpr ⟨e, mem_constituents.mpr hte, heq.symm⟩
    have hbal : ∀ e ∈ constituents t, weightOn m ⟨pureComp e, k e⟩ = t e := by
      intro e he
      have hA := hm.2 e (mem_constituents.mp he)
      rw [mixAmount_group hnd hm_cs e, List.map_map] at hA
      have hcong : ∀ x ∈ constituents t,
          ((fun c : CostEntry => weightOn m c * c.comp e) ∘ (fun x => (⟨pureComp x, k x⟩ : CostEntry))) x
            = (fun x => if e = x then weightOn m ⟨pureComp x, k x⟩ else 0) x := by
        intro x _
        simp only [Function.comp]
        show weightOn m ⟨pureComp x, k x⟩ * (if e = x then 1 else 0)
          = if e = x then weightOn m ⟨pureComp x, k x⟩ else 0
        by_cases h : e = x
        · rw [if_pos h, if_pos h, mul_one]
        · rw [if_neg h, if_neg h, mul_zero]
      rw [List.map_congr_left hcong, sum_map_ite (constituents_nodup t) he] at hA
      exact hA
    have hkey : sumOverElems (fun e => t e * costPerMol ⟨pureComp e, k e⟩) = mixCost m := by
      calc sumOverElems (fun e => t e * costPerMol ⟨pureComp e, k e⟩)
          = ((constituents t).map (fun e => t e * costPerMol ⟨pureComp e, k e⟩)).sum := by
            unfold sumOverElems constituents
            symm
            exact sum_map_filter_of_vanish elemList _ _ (fun e _ hpe => by
              have ht : t e = 0 := not_not.mp (of_decide_eq_false hpe)
              show t e * costPerMol ⟨pureComp e, k e⟩ = 0
              rw [ht, zero_mul])
        _ = ((constituents t).map
              (fun e => weightOn m ⟨pureComp e, k e⟩ * costPerMol ⟨pureComp e, k e⟩)).sum := by
            refine congrArg List.sum (List.map_congr_left ?_)
            intro e he
            rw [hbal e he]
        _ = mixCost m := by
            rw [mixCost_group hnd hm_cs, List.map_map]
            rfl
    exact le_of_eq hkey

theorem singleton_decomposition {db : CostDB} {t : Comp} {ent : CostEntry}
    (hent : ent ∈ db.entries) (hcomp : ent.comp = t) :
    IsDecomposition db t [(1, ent)] := by
  constructor
  · intro p hp
    rw [List.mem_singleton] at hp
    subst hp
    exact ⟨zero_le_one, entry_mem_candidates hent (fun e h => by rwa [hcomp] at h)⟩
  · intro e ht
    show 1 * ent.comp e + 0 = t e
    rw [hcomp, one_mul, add_zero]

theorem singleton_cost (ent : CostEntry) : mixCost [(1, ent)] = costPerMol ent := by
  show 1 * costPerMol ent + 0 = costPerMol ent
  rw [one_mul, add_zero]

theorem direct_entry_cost {db : CostDB} {t : Comp} {ent : CostEntry}
    (hent : ent ∈ db.entries) (hcomp : ent.comp = t)
    (hcheap : ∀ m, IsDecomposition db t m → costPerMol ent ≤ mixCost m) :
    IsCostPerMol db t (costPerMol ent) :=
  ⟨⟨[(1, ent)], singleton_decomposition hent hcomp, singleton_cost ent⟩, hcheap⟩

theorem molarMassKg_pure_pos (e : Elem) : 0 < molarMassKg (pureComp e) := by
  cases e <;>
    norm_num +decide [molarMassKg, sumOverElems, elemList, atomicMass, pureComp]

theorem pureComp_nonneg (e x : Elem) : 0 ≤ pureComp e x := by
  rw [pureComp_apply]
  split <;> norm_num

theorem AgO_nonneg (e : Elem) : 0 ≤ AgO e := by
  cases e <;> norm_num +decide [AgO]

theorem PtO_nonneg (e : Elem) : 0 ≤ PtO e := by
  cases e <;> norm_num +decide [PtO]

theorem MgO_nonneg (e : Elem) : 0 ≤ MgO e := by
  cases e <;> norm_num +decide [MgO]

theorem costPerMol_agEntry : costPerMol agEntry = 0.3236046 := by
  norm_num +decide [costPerMol, agEntry, molarMassKg, sumOverElems, elemList,
    atomicMass, pureComp]

theorem costPerMol_oEntry : costPerMol oEntry = 0.0159994 := by
  norm_num +decide [costPerMol, oEntry, molarMassKg, sumOverElems, elemList,
    atomicMass, pureComp]

theorem costPerMol_agoEntry : costPerMol agoEntry = 0.1858014 := by
  norm_num +decide [costPerMol, agoEntry, molarMassKg, sumOverElems, elemList,
    atomicMass, AgO]

theorem costdb1_h1 {t : Comp} :
    ∀ ent ∈ candidates costdb1 t, ∃ e, ent = ⟨pureComp e, k1 e⟩ := by
  intro ent h
  rcases mem_candidates_iff.mp h with ⟨hmem, _⟩ | ⟨e, hte, hfalse, rfl⟩
  · have hmem' : ent = agEntry ∨ ent = oEntry := by simpa [costdb1] using hmem
    rcases hmem' with rfl | rfl
    · exact ⟨Elem.Ag, rfl⟩
    · exact ⟨Elem.O, rfl⟩
  · cases e
    · exact absurd hfalse (by decide)
    · exact absurd hfalse (by decide)
    · exact ⟨Elem.Pt, rfl⟩
    · exact ⟨Elem.Mg, rfl⟩

theorem agEntry_mem_costdb1 : agEntry ∈ costdb1.entries := by
  simp [costdb1]

theorem oEntry_mem_costdb1 : oEntry ∈ costdb1.entries := by
  simp [costdb1]

theorem costdb1_h2_AgO :
    ∀ e, AgO e ≠ 0 → (⟨pureComp e, k1 e⟩ : CostEntry) ∈ candidates costdb1 AgO := by
  intro e he
  cases e
  · exact entry_mem_candidates agEntry_mem_costdb1
      (isSubComp_pure (by rw [show AgO Elem.Ag = 1 from rfl]; exact one_ne_zero))
  · exact entry_mem_candidates oEntry_mem_costdb1
      (isSubComp_pure (by rw [show AgO Elem.O = 1 from rfl]; exact one_ne_zero))
  · exact absurd (show AgO Elem.Pt = 0 from rfl) he
  · exact absurd (show AgO Elem.Mg = 0 from rfl) he

theorem costdb1_h2_Ag :
    ∀ e, pureComp Elem.Ag e ≠ 0 →
      (⟨pureComp e, k1 e⟩ : CostEntry) ∈ candidates costdb1 (pureComp Elem.Ag) := by
  intro e he
  cases e
  · exact entry_mem_candidates agEntry_mem_costdb1
      (isSubComp_pure (by rw [show pureComp Elem.Ag Elem.Ag = 1 from rfl]; exact one_ne_zero))
  · exact absurd (show pureComp Elem.Ag Elem.O = 0 from rfl) he
  · exact absurd (show pureComp Elem.Ag Elem.Pt = 0 from rfl) he
  · exact absurd (show pureComp Elem.Ag Elem.Mg = 0 from rfl) he

theorem costdb1_h2_O :
    ∀ e, pureComp Elem.O e ≠ 0 →
      (⟨pureComp e, k1 e⟩ : CostEntry) ∈ candidates costdb1 (pureComp Elem.O) := by
  intro e he
  cases e
  · exact absurd (show pureComp Elem.O Elem.Ag = 0 from rfl) he
  · exact entry_mem_candidates oEntry_mem_costdb1
      (isSubComp_pure (by rw [show pureComp Elem.O Elem.O = 1 from rfl]; exact one_ne_zero))
  · exact absurd (show pureComp Elem.O Elem.Pt = 0 from rfl) he
  · exact absurd (show pureComp Elem.O Elem.Mg = 0 from rfl) he

theorem costdb1_Ag_mol : IsCostPerMol costdb1 (pureComp Elem.Ag) 0.3236046 := by
  have h := cost_of_pure_candidates (fun e => pureComp_nonneg Elem.Ag e)
    costdb1_h1 costdb1_h2_Ag
  have hv : sumOverElems (fun e => pureComp Elem.Ag e * costPerMol ⟨pureComp e, k1 e⟩)
      = 0.3236046 := by
    norm_num +decide [sumOverElems, elemList, costPerMol, molarMassKg, atomicMass,
      pureComp, k1, elementPrice]
  rwa [hv] at h

theorem costdb1_O_mol : IsCostPerMol costdb1 (pureComp Elem.O) 0.0159994 := by
  have h := cost_of_pure_candidates (fun e => pureComp_nonneg Elem.O e)
    costdb1_h1 costdb1_h2_O
  have hv : sumOverElems (fun e => pureComp Elem.O e * costPerMol ⟨pureComp e, k1 e⟩)
      = 0.0159994 := by
    norm_num +decide [sumOverElems, elemList, costPerMol, molarMassKg, atomicMass,
      pureComp, k1, elementPrice]
  rwa [hv] at h

theorem costdb1_AgO_mol : IsCostPerMol costdb1 AgO 0.339604 := by
  have h := cost_of_pure_candidates AgO_nonneg costdb1_h1 costdb1_h2_AgO
  have hv : sumOverElems (fun e => AgO e * costPerMol ⟨pureComp e, k1 e⟩)
      = 0.339604 := by
    norm_num +decide [sumOverElems, elemList, AgO, costPerMol, molarMassKg, atomicMass,
      pureComp, k1, elementPrice]
  rwa [hv] at h

theorem agEntry_ne_oEntry : agEntry ≠ oEntry := by
  intro h
  have hc := congrFun (congrArg CostEntry.comp h) Elem.Ag
  rw [show agEntry.comp Elem.Ag = 1 from rfl, show oEntry.comp Elem.Ag = 0 from rfl] at hc
  exact one_ne_zero hc

theorem agEntry_ne_agoEntry : agEntry ≠ agoEntry := by
  intro h
  have hc := congrFun (congrArg CostEntry.comp h) Elem.O
  rw [show agEntry.comp Elem.O = 0 from rfl, show agoEntry.comp Elem.O = 1 from rfl] at hc
  exact zero_ne_one hc

theorem oEntry_ne_agoEntry : oEntry ≠ agoEntry := by
  intro h
  have hc := congrFun (congrArg CostEntry.comp h) Elem.Ag
  rw [show oEntry.comp Elem.Ag = 0 from rfl, show agoEntry.comp Elem.Ag = 1 from rfl] at hc
  exact zero_ne_one hc

theorem costdb2_entries_nodup : ([agEntry, oEntry, agoEntry] : List CostEntry).Nodup := by
  simp [agEntry_ne_oEntry, agEntry_ne_agoEntry, oEntry_ne_agoEntry]

theorem costdb2_cheap :
    ∀ m, IsDecomposition costdb2 AgO m → costPerMol agoEntry ≤ mixCost m := by
  intro m hm
  have hm_cs : ∀ p ∈ m, p.2 ∈ ([agEntry, oEntry, agoEntry] : List CostEntry) := by
    intro p hp
    rcases mem_candidates_iff.mp (hm.1 p hp).2 with ⟨hmem, _⟩ | ⟨e, hte, hfalse, heq⟩
    · exact hmem
    · cases e
      · exact absurd hfalse (by decide)
      · exact absurd hfalse (by decide)
      · exact absurd (show AgO Elem.Pt = 0 from rfl) hte
      · exact absurd (show AgO Elem.Mg = 0 from rfl) hte
  have hAg := hm.2 Elem.Ag (by rw [show AgO Elem.Ag = 1 from rfl]; exact one_ne_zero)
  rw [mixAmount_group costdb2_entries_nodup hm_cs Elem.Ag] at hAg
  simp only [List.map_cons, List.map_nil, List.sum_cons, List.sum_nil] at hAg
  rw [show agEntry.comp Elem.Ag = 1 from rfl, show oEntry.comp Elem.Ag = 0 from rfl,
    show agoEntry.comp Elem.Ag = 1 from rfl, show AgO Elem.Ag = 1 from rfl] at hAg
  have hO := hm.2 Elem.O (by rw [show AgO Elem.O = 1 from rfl]; exact one_ne_zero)
  rw [mixAmount_group costdb2_entries_nodup hm_cs Elem.O] at hO
  simp only [List.map_cons, List.map_nil, List.sum_cons, List.sum_nil] at hO
  rw [show agEntry.comp Elem.O = 0 from rfl, show oEntry.comp Elem.O = 1 from rfl,
    show agoEntry.comp Elem.O = 1 from rfl, show AgO Elem.O = 1 from rfl] at hO
  have hwpos : ∀ p ∈ m, 0 ≤ p.1 := fun p hp => (hm.1 p hp).1
  have hAnn := weightOn_nonneg hwpos agEntry
  have hBnn := weightOn_nonneg hwpos oEntry
  have hGnn := weightOn_nonneg hwpos agoEntry
  rw [mixCost_group costdb2_entries_nodup hm_cs]
  simp only [List.map_cons, List.map_nil, List.sum_cons, List.sum_nil]
  rw [costPerMol_agEntry, costPerMol_oEntry, costPerMol_agoEntry]
  nlinarith [hAg, hO, hAnn, hBnn, hGnn]

theorem agoEntry_mem_costdb2 : agoEntry ∈ costdb2.entries := by
  simp [costdb2]

theorem costdb2_AgO_mol : IsCostPerMol costdb2 AgO 0.1858014 := by
  have h := direct_entry_cost agoEntry_mem_costdb2 rfl costdb2_cheap
  rwa [costPerMol_agoEntry] at h

theorem costdbElems_h1 {t : Comp} :
    ∀ ent ∈ candidates CostDBElements t, ∃ e, ent = ⟨pureComp e, elementPrice e⟩ := by
  intro ent h
  rcases mem_candidates_iff.mp h with ⟨hmem, _⟩ | ⟨e, _, _, rfl⟩
  · obtain ⟨e, _, rfl⟩ := List.mem_map.mp hmem
    exact ⟨e, rfl⟩
  · exact ⟨e, rfl⟩

theorem fallback_mem_costdbElems (e : Elem) : fallbackEntry e ∈ CostDBElements.entries :=
  List.mem_map.mpr ⟨e, mem_elemList e, rfl⟩

theorem costdbElems_h2 {t : Comp} :
    ∀ e, t e ≠ 0 →
      (⟨pureComp e, elementPrice e⟩ : CostEntry) ∈ candidates CostDBElements t :=
  fun e hte => entry_mem_candidates (fallback_mem_costdbElems e) (isSubComp_pure hte)

theorem costdbElems_PtO_mol : IsCostPerMol CostDBElements PtO 5852.530559604 := by
  have h := cost_of_pure_candidates PtO_nonneg costdbElems_h1 costdbElems_h2
  have hv : sumOverElems (fun e => PtO e * costPerMol ⟨pureComp e, elementPrice e⟩)
      = 5852.530559604 := by
    norm_num +decide [sumOverElems, elemList, PtO, costPerMol, molarMassKg, atomicMass,
      pureComp, elementPrice]
  rwa [hv] at h

theorem costdbElems_MgO_mol : IsCostPerMol CostDBElements MgO 0.066947204 := by
  have h := cost_of_pure_candidates MgO_nonneg costdbElems_h1 costdbElems_h2
  have hv : sumOverElems (fun e => MgO e * costPerMol ⟨pureComp e, elementPrice e⟩)
      = 0.066947204 := by
    norm_num +decide [sumOverElems, elemList, MgO, costPerMol, molarMassKg, atomicMass,
      pureComp, elementPrice]
  rwa [hv] at h

theorem single_entry_cost {db : CostDB} {e : Elem} {ent : CostEntry}
    (hent : ent ∈ db.entries) (hcomp : ent.comp = pureComp e)
    (huniq : ∀ ent' ∈ db.entries, (∀ x, x ≠ e → ent'.comp x = 0) → ent' = ent) :
    IsCostPerMol db (pureComp e) (costPerMol ent) := by
  have hcand : ∀ cand ∈ candidates db (pureComp e), cand = ent := by
    intro cand hc
    rcases mem_candidates_iff.mp hc with ⟨hmem, hsub⟩ | ⟨f, hte, hfalse, heq⟩
    · apply huniq cand hmem
      intro x hx
      by_contra hnz
      have hzx := hsub x hnz
      rw [pureComp_apply, if_neg hx] at hzx
      exact hzx rfl
    · have hf : f = e := by
        by_contra h
        rw [pureComp_apply, if_neg h] at hte
        exact hte rfl
      subst hf
      exact absurd (hasPureEntry_iff.mpr ⟨ent, hent, hcomp⟩)
        (by rw [hfalse]; exact Bool.false_ne_true)
  constructor
  · exact ⟨[(1, ent)], singleton_decomposition hent hcomp, singleton_cost ent⟩
  · intro m hm
    have hm_cs : ∀ p ∈ m, p.2 ∈ ([ent] : List CostEntry) := by
      intro p hp
      rw [List.mem_singleton]
      exact hcand p.2 (hm.1 p hp).2
    have hnd : ([ent] : List CostEntry).Nodup := List.nodup_singleton ent
    have hbal := hm.2 e (by rw [pureComp_apply, if_pos rfl]; exact one_ne_zero)
    rw [mixAmount_group hnd hm_cs e] at hbal
    simp only [List.map_cons, List.map_nil, List.sum_cons, List.sum_nil] at hbal
    rw [hcomp, pureComp_apply, if_pos rfl] at hbal
    rw [mixCost_group hnd hm_cs]
    simp only [List.map_cons, List.map_nil, List.sum_cons, List.sum_nil]
    have hW : weightOn m ent = 1 := by linarith [hbal]
    rw [hW]
    exact le_of_eq (by ring)

theorem decomposition_exists {db : CostDB} {t : Comp} (h0 : ∀ e, 0 ≤ t e) :
    ∃ m, IsDecomposition db t m := by
  refine ⟨pureMix t (fun e =>
    match db.entries.find? (fun ent => decide (ent.comp = pureComp e)) with
    | some ent => ent
    | none => fallbackEntry e), pureMix_isDecomposition h0 ?_⟩
  intro e hte
  rcases hfind : db.entries.find? (fun ent => decide (ent.comp = pureComp e)) with _ | ent
  · simp only [hfind]
    constructor
    · exact fallback_mem_candidates (by unfold hasPureEntry; rw [hfind]; rfl) hte
    · rfl
  · simp only [hfind]
    have hp := List.find?_some hfind
    simp only [decide_eq_true_eq] at hp
    exact ⟨entry_mem_candidates (List.mem_of_find?_eq_some hfind)
      (by rw [hp]; exact isSubComp_pure hte), hp⟩

theorem replaceCand_spec {db : CostDB} {t : Comp} {newEnt : CostEntry} {s : ℚ}
    (hs : IsCostPerKg db newEnt.comp s) (hkg : newEnt.cost_per_kg ≤ s)
    {cand : CostEntry} (hc : cand ∈ candidates db t) :
    replaceCand db t newEnt cand ∈ candidates (CostDB.mk (newEnt :: db.entries)) t ∧
      (replaceCand db t newEnt cand).comp = cand.comp ∧
      costPerMol (replaceCand db t newEnt cand) ≤ costPerMol cand := by
  unfold replaceCand
  by_cases hcond : ∃ e, t e ≠ 0 ∧ hasPureEntry db e = false ∧
      cand = fallbackEntry e ∧ newEnt.comp = pureComp e
  · rw [if_pos hcond]
    obtain ⟨e, hte, hfb, hcand, hpure⟩ := hcond
    refine ⟨?_, ?_, ?_⟩
    · exact entry_mem_candidates (List.mem_cons_self _ _)
        (by rw [hpure]; exact isSubComp_pure hte)
    · rw [hcand, hpure]; rfl
    · rw [hcand]
      obtain ⟨cm, hcm, hsval⟩ := hs
      have hfbcand : fallbackEntry e ∈ candidates db (pureComp e) :=
        fallback_mem_candidates hfb (by rw [pureComp_apply, if_pos rfl]; exact one_ne_zero)
      have hdec : IsDecomposition db (pureComp e) [(1, fallbackEntry e)] := by
        constructor
        · intro p hp
          rw [List.mem_singleton] at hp
          subst hp
          exact ⟨zero_le_one, hfbcand⟩
        · intro x hx
          have hxe : x = e := by
            by_contra h
            rw [pureComp_apply, if_neg h] at hx
            exact hx rfl
          rw [hxe]
          show 1 * (fallbackEntry e).comp e + 0 = pureComp e e
          rw [one_mul, add_zero]
          rfl
      have hle : cm ≤ costPerMol (fallbackEntry e) := by
        have h2 := hcm.2
        rw [hpure] at h2
        have := h2 [(1, fallbackEntry e)] hdec
        rwa [singleton_cost] at this
      have hM : 0 < molarMassKg (pureComp e) := molarMassKg_pure_pos e
      calc costPerMol newEnt = newEnt.cost_per_kg * molarMassKg (pureComp e) := by
            rw [costPerMol, hpure]
        _ ≤ s * molarMassKg (pureComp e) :=
            mul_le_mul_of_nonneg_right hkg (le_of_lt hM)
        _ = cm / molarMassKg (pureComp e) * molarMassKg (pureComp e) := by
            rw [hsval, hpure]
        _ = cm := div_mul_cancel₀ _ (ne_of_gt hM)
        _ ≤ costPerMol (fallbackEntry e) := hle
  · rw [if_neg hcond]
    refine ⟨?_, rfl, le_refl _⟩
    rcases mem_candidates_iff.mp hc with ⟨hmem, hsub⟩ | ⟨e, hte, hfb, heq⟩
    · exact entry_mem_candidates (List.mem_cons_of_mem _ hmem) hsub
    · have hne : newEnt.comp ≠ pureComp e := by
        intro h
        exact hcond ⟨e, hte, hfb, heq, h⟩
      rw [heq]
      apply fallback_mem_candidates ?_ hte
      rw [Bool.eq_false_iff]
      rw [Ne, hasPureEntry_iff]
      rintro ⟨ent', hent', hcomp'⟩
      rcases List.mem_cons.mp hent' with rfl | hent''
      · exact hne hcomp'
      · exact absurd (hasPureEntry_iff.mpr ⟨ent', hent'', hcomp'⟩)
          (by rw [hfb]; exact Bool.false_ne_true)

theorem extend_cheaper_le {db : CostDB} {t : Comp} {newEnt : CostEntry} {s c c' : ℚ}
    (hs : IsCostPerKg db newEnt.comp s) (hkg : newEnt.cost_per_kg ≤ s)
    (h : IsCostPerMol db t c)
    (h' : IsCostPerMol (CostDB.mk (newEnt :: db.entries)) t c') :
    c' ≤ c := by
  obtain ⟨⟨m, hm, hc⟩, _⟩ := h
  have hm' : IsDecomposition (CostDB.mk (newEnt :: db.entries)) t
      (m.map (fun p => (p.1, replaceCand db t newEnt p.2))) := by
    constructor
    · intro q hq
      obtain ⟨p, hp, rfl⟩ := List.mem_map.mp hq
      exact ⟨(hm.1 p hp).1, (replaceCand_spec hs hkg (hm.1 p hp).2).1⟩
    · intro e hte
      unfold mixAmount
      rw [List.map_map]
      have hcong : ∀ p ∈ m,
          ((fun q : ℚ × CostEntry => q.1 * q.2.comp e)
            ∘ (fun p : ℚ × CostEntry => (p.1, replaceCand db t newEnt p.2))) p
            = (fun p : ℚ × CostEntry => p.1 * p.2.comp e) p := by
        intro p hp
        simp only [Function.comp]
        rw [(replaceCand_spec hs hkg (hm.1 p hp).2).2.1]
      rw [List.map_congr_left hcong]
      exact hm.2 e hte
  have hcost' : mixCost (m.map (fun p => (p.1, replaceCand db t newEnt p.2)))
      ≤ mixCost m := by
    unfold mixCost
    rw [List.map_map]
    apply List.sum_le_sum
    intro p hp
    exact mul_le_mul_of_nonneg_left (replaceCand_spec hs hkg (hm.1 p hp).2).2.2
      (hm.1 p hp).1
  calc c' ≤ mixCost (m.map (fun p => (p.1, replaceCand db t newEnt p.2))) := h'.2 _ hm'
    _ ≤ mixCost m := hcost'
    _ = c := hc

theorem costdb1_uniq_Ag :
    ∀ ent' ∈ costdb1.entries, (∀ x, x ≠ Elem.Ag → ent'.comp x = 0) → ent' = agEntry := by
  intro ent' hmem hz
  have hmem' : ent' = agEntry ∨ ent' = oEntry := by simpa [costdb1] using hmem
  rcases hmem' with rfl | rfl
  · rfl
  · have h := hz Elem.O (by decide)
    rw [show oEntry.comp Elem.O = 1 from rfl] at h
    exact absurd h one_ne_zero

theorem costdb2_uniq_Ag :
    ∀ ent' ∈ costdb2.entries, (∀ x, x ≠ Elem.Ag → ent'.comp x = 0) → ent' = agEntry := by
  intro ent' hmem hz
  have hmem' : ent' = agEntry ∨ ent' = oEntry ∨ ent' = agoEntry := by
    simpa [costdb2] using hmem
  rcases hmem' with rfl | rfl | rfl
  · rfl
  · have h := hz Elem.O (by decide)
    rw [show oEntry.comp Elem.O = 1 from rfl] at h
    exact absurd h one_ne_zero
  · have h := hz Elem.O (by decide)
    rw [show agoEntry.comp Elem.O = 1 from rfl] at h
    exact absurd h one_ne_zero

theorem agEntry_mem_costdb2 : agEntry ∈ costdb2.entries := by
  simp [costdb2]

theorem costdb1_ext_entries_nodup :
    ([agoEntry, agEntry, oEntry] : List CostEntry).Nodup := by
  have h1 : agoEntry ≠ agEntry := fun h => agEntry_ne_agoEntry h.symm
  have h2 : agoEntry ≠ oEntry := fun h => oEntry_ne_agoEntry h.symm
  simp [h1, h2, agEntry_ne_oEntry]

theorem costdb1_ext_cheap :
    ∀ m, IsDecomposition (CostDB.mk (agoEntry :: costdb1.entries)) AgO m →
      costPerMol agoEntry ≤ mixCost m := by
  intro m hm
  have hm_cs : ∀ p ∈ m, p.2 ∈ ([agoEntry, agEntry, oEntry] : List CostEntry) := by
    intro p hp
    rcases mem_candidates_iff.mp (hm.1 p hp).2 with ⟨hmem, _⟩ | ⟨e, hte, hfalse, heq⟩
    · exact hmem
    · cases e
      · exact absurd hfalse (by decide)
      · exact absurd hfalse (by decide)
      · exact absurd (show AgO Elem.Pt = 0 from rfl) hte
      · exact absurd (show AgO Elem.Mg = 0 from rfl) hte
  have hAg := hm.2 Elem.Ag (by rw [show AgO Elem.Ag = 1 from rfl]; exact one_ne_zero)
  rw [mixAmount_group costdb1_ext_entries_nodup hm_cs Elem.Ag] at hAg
  simp only [List.map_cons, List.map_nil, List.sum_cons, List.sum_nil] at hAg
  rw [show agEntry.comp Elem.Ag = 1 from rfl, show oEntry.comp Elem.Ag = 0 from rfl,
    show agoEntry.comp Elem.Ag = 1 from rfl, show AgO Elem.Ag = 1 from rfl] at hAg
  have hO := hm.2 Elem.O (by rw [show AgO Elem.O = 1 from rfl]; exact one_ne_zero)
  rw [mixAmount_group costdb1_ext_entries_nodup hm_cs Elem.O] at hO
  simp only [List.map_cons, List.map_nil, List.sum_cons, List.sum_nil] at hO
  rw [show agEntry.comp Elem.O = 0 from rfl, show oEntry.comp Elem.O = 1 from rfl,
    show agoEntry.comp Elem.O = 1 from rfl, show AgO Elem.O = 1 from rfl] at hO
  have hwpos : ∀ p ∈ m, 0 ≤ p.1 := fun p hp => (hm.1 p hp).1
  have hAnn := weightOn_nonneg hwpos agEntry
  have hBnn := weightOn_nonneg hwpos oEntry
  have hGnn := weightOn_nonneg hwpos agoEntry
  rw [mixCost_group costdb1_ext_entries_nodup hm_cs]
  simp only [List.map_cons, List.map_nil, List.sum_cons, List.sum_nil]
  rw [costPerMol_agEntry, costPerMol_oEntry, costPerMol_agoEntry]
  nlinarith [hAg, hO, hAnn, hBnn, hGnn]

theorem costdb1_ext_AgO_mol :
    IsCostPerMol (CostDB.mk (agoEntry :: costdb1.entries)) AgO 0.1858014 := by
  have h := direct_entry_cost (List.mem_cons_self agoEntry costdb1.entries) rfl
    costdb1_ext_cheap
  rwa [costPerMol_agoEntry] at h

/-- Claim C1: for every composition decomposable only via elements (every
candidate is a pure-element entry with per-kg cost `k`), the cost per mol
is the sum of element amount times element cost per mol; in particular for
the two-entry database costdb1 the cost per mol of AgO is within relative
tolerance 1e-3 of 0.3396 and the cost per kg within 1e-3 of 2.7416. -/
theorem claim_C1 :
    (∀ (db : CostDB) (t : Comp) (k : Elem → ℚ),
        (∀ e, 0 ≤ t e) →
        (∀ ent ∈ candidates db t, ∃ e, ent = ⟨pureComp e, k e⟩) →
        (∀ e, t e ≠ 0 → (⟨pureComp e, k e⟩ : CostEntry) ∈ candidates db t) →
        IsCostPerMol db t (sumOverElems (fun e => t e * costPerMol ⟨pureComp e, k e⟩)))
    ∧ (∃ c, IsCostPerMol costdb1 AgO c ∧ |c - 0.3396| ≤ 0.3396 / 1000)
    ∧ (∃ c, IsCostPerKg costdb1 AgO c ∧ |c - 2.7416| ≤ 2.7416 / 1000) := by
  refine ⟨fun db t k h0 h1 h2 => cost_of_pure_candidates h0 h1 h2,
    ⟨0.339604, costdb1_AgO_mol, ?_⟩,
    ⟨0.339604 / molarMassKg AgO, ⟨0.339604, costdb1_AgO_mol, rfl⟩, ?_⟩⟩
  · rw [abs_le]
    constructor <;> norm_num
  · rw [abs_le]
    constructor <;>
      norm_num +decide [molarMassKg, sumOverElems, elemList, atomicMass, AgO]

/-- Witness for C1: the general statement applied to costdb1, AgO and the
database's elemental cost function k1. -/
theorem claim_C1_witness :
    IsCostPerMol costdb1 AgO
      (sumOverElems (fun e => AgO e * costPerMol ⟨pureComp e, k1 e⟩)) :=
  claim_C1.1 costdb1 AgO k1 AgO_nonneg costdb1_h1 costdb1_h2_AgO

/-- Claim C2: the analyzer never reports a cost above the cost of any
decomposition; when the database holds a direct entry for the exact target
that is cheaper than any decomposition, that entry's per-kg price is
reported; in particular costdb2 reports exactly 1.5 per kg for AgO. -/
theorem claim_C2 :
    (∀ (db : CostDB) (t : Comp) (c : ℚ) (m : Mix),
        IsCostPerMol db t c → IsDecomposition db t m → c ≤ mixCost m)
    ∧ (∀ (db : CostDB) (t : Comp) (ent : CostEntry) (ck : ℚ),
        ent ∈ db.entries → ent.comp = t →
        (∀ m, IsDecomposition db t m → costPerMol ent ≤ mixCost m) →
        0 < molarMassKg t → IsCostPerKg db t ck → ck = ent.cost_per_kg)
    ∧ IsCostPerKg costdb2 AgO 1.5
    ∧ (∀ ck, IsCostPerKg costdb2 AgO ck → ck = 1.5) := by
  refine ⟨fun db t c m hmin hdec => hmin.2 m hdec, ?_, ?_, ?_⟩
  · rintro db t ent ck hent hcomp hcheap hM ⟨cm, hcm, rfl⟩
    rw [IsCostPerMol_unique hcm (direct_entry_cost hent hcomp hcheap), costPerMol,
      hcomp, mul_div_assoc, div_self (ne_of_gt hM), mul_one]
  · exact ⟨0.1858014, costdb2_AgO_mol,
      by norm_num +decide [molarMassKg, sumOverElems, elemList, atomicMass, AgO]⟩
  · rintro ck ⟨cm, hcm, rfl⟩
    rw [IsCostPerMol_unique hcm costdb2_AgO_mol]
    norm_num +decide [molarMassKg, sumOverElems, elemList, atomicMass, AgO]

/-- Witness for C2: the optimum of costdb2 on AgO is bounded by the cost of
the direct-entry decomposition, and the direct AgO entry price 1.5 is what
costdb2 reports per kg. -/
theorem claim_C2_witness :
    ((0.1858014 : ℚ) ≤ mixCost [(1, agoEntry)])
      ∧ (0.1858014 / molarMassKg AgO : ℚ) = agoEntry.cost_per_kg :=
  ⟨claim_C2.1 costdb2 AgO 0.1858014 [(1, agoEntry)] costdb2_AgO_mol
      (singleton_decomposition agoEntry_mem_costdb2 rfl),
    claim_C2.2.1 costdb2 AgO agoEntry (0.1858014 / molarMassKg AgO)
      agoEntry_mem_costdb2 rfl costdb2_cheap
      (by norm_num +decide [molarMassKg, sumOverElems, elemList, atomicMass, AgO])
      ⟨0.1858014, costdb2_AgO_mol, rfl⟩⟩

/-- Claim C3: for every composition accepted by the analyzer, the cost per
kg equals the cost per mol divided by the molar mass in kilograms. -/
theorem claim_C3 :
    ∀ (db : CostDB) (t : Comp) (ck cm : ℚ),
      IsCostPerKg db t ck → IsCostPerMol db t cm → ck = cm / molarMassKg t := by
  rintro db t ck cm ⟨cm', h', rfl⟩ hm
  rw [IsCostPerMol_unique h' hm]

/-- Witness for C3: instantiated at costdb1 and the pure-Ag composition. -/
theorem claim_C3_witness :
    (0.3236046 / molarMassKg (pureComp Elem.Ag) : ℚ)
      = 0.3236046 / molarMassKg (pureComp Elem.Ag) :=
  claim_C3 costdb1 (pureComp Elem.Ag) (0.3236046 / molarMassKg (pureComp Elem.Ag))
    0.3236046 ⟨0.3236046, costdb1_Ag_mol, rfl⟩ costdb1_Ag_mol

/-- Claim C4: for every single-element composition with a direct database
entry (the database being a mapping on reduced formulas, so the entry is
the only one over that element), the reported cost per kg is exactly the
entry's cost per kg, and two databases holding the same entry report the
same value. -/
theorem claim_C4 :
    ∀ (db db' : CostDB) (e : Elem) (ent : CostEntry) (c c' : ℚ),
      ent ∈ db.entries → ent.comp = pureComp e →
      (∀ ent' ∈ db.entries, (∀ x, x ≠ e → ent'.comp x = 0) → ent' = ent) →
      ent ∈ db'.entries →
      (∀ ent' ∈ db'.entries, (∀ x, x ≠ e → ent'.comp x = 0) → ent' = ent) →
      IsCostPerKg db (pureComp e) c → IsCostPerKg db' (pureComp e) c' →
      c = ent.cost_per_kg ∧ c' = c := by
  intro db db' e ent c c' hent hcomp huniq hent' huniq' hc hc'
  have key : ∀ (d : CostDB) (x : ℚ), ent ∈ d.entries →
      (∀ ent'' ∈ d.entries, (∀ y, y ≠ e → ent''.comp y = 0) → ent'' = ent) →
      IsCostPerKg d (pureComp e) x → x = ent.cost_per_kg := by
    rintro d x hd hu ⟨cm, hmol, rfl⟩
    rw [IsCostPerMol_unique hmol (single_entry_cost hd hcomp hu), costPerMol, hcomp,
      mul_div_assoc, div_self (ne_of_gt (molarMassKg_pure_pos e)), mul_one]
  have h1 := key db c hent huniq hc
  have h2 := key db' c' hent' huniq' hc'
  exact ⟨h1, h2.trans h1.symm⟩

/-- Witness for C4: costdb1 and costdb2 share the Ag entry at 3 per kg and
both report exactly that price for pure Ag. -/
theorem claim_C4_witness :
    (costPerMol agEntry / molarMassKg (pureComp Elem.Ag) : ℚ) = agEntry.cost_per_kg
      ∧ (costPerMol agEntry / molarMassKg (pureComp Elem.Ag) : ℚ)
          = costPerMol agEntry / molarMassKg (pureComp Elem.Ag) :=
  claim_C4 costdb1 costdb2 Elem.Ag agEntry
    (costPerMol agEntry / molarMassKg (pureComp Elem.Ag))
    (costPerMol agEntry / molarMassKg (pureComp Elem.Ag))
    agEntry_mem_costdb1 rfl costdb1_uniq_Ag agEntry_mem_costdb2 costdb2_uniq_Ag
    ⟨costPerMol agEntry, single_entry_cost agEntry_mem_costdb1 rfl costdb1_uniq_Ag, rfl⟩
    ⟨costPerMol agEntry, single_entry_cost agEntry_mem_costdb2 rfl costdb2_uniq_Ag, rfl⟩

/-- Claim C5: extending a database with a new direct entry that is at most
the composition's current effective cost per kg never increases the
reported cost per mol or per kg of any composition. -/
theorem claim_C5 :
    ∀ (db : CostDB) (t : Comp) (newEnt : CostEntry) (s c c' ck ck' : ℚ),
      IsCostPerKg db newEnt.comp s → newEnt.cost_per_kg ≤ s →
      0 < molarMassKg t →
      IsCostPerMol db t c →
      IsCostPerMol (CostDB.mk (newEnt :: db.entries)) t c' →
      IsCostPerKg db t ck →
      IsCostPerKg (CostDB.mk (newEnt :: db.entries)) t ck' →
      c' ≤ c ∧ ck' ≤ ck := by
  intro db t newEnt s c c' ck ck' hs hkg hM hc hc' hck hck'
  have hmol := extend_cheaper_le hs hkg hc hc'
  refine ⟨hmol, ?_⟩
  obtain ⟨cm, hcm, rfl⟩ := hck
  obtain ⟨cm', hcm', rfl⟩ := hck'
  rw [IsCostPerMol_unique hcm hc, IsCostPerMol_unique hcm' hc']
  exact (div_le_div_iff_of_pos_right hM).mpr hmol

/-- Witness for C5: adding the cheap direct AgO entry to costdb1 lowers the
reported AgO cost from the elemental decomposition to the entry price. -/
theorem claim_C5_witness :
    ((0.1858014 : ℚ) ≤ 0.339604)
      ∧ (0.1858014 / molarMassKg AgO : ℚ) ≤ 0.339604 / molarMassKg AgO :=
  claim_C5 costdb1 AgO agoEntry (0.339604 / molarMassKg AgO) 0.339604 0.1858014
    (0.339604 / molarMassKg AgO) (0.1858014 / molarMassKg AgO)
    ⟨0.339604, costdb1_AgO_mol, rfl⟩
    (by norm_num +decide [agoEntry, molarMassKg, sumOverElems, elemList, atomicMass, AgO])
    (by norm_num +decide [molarMassKg, sumOverElems, elemList, atomicMass, AgO])
    costdb1_AgO_mol costdb1_ext_AgO_mol
    ⟨0.339604, costdb1_AgO_mol, rfl⟩
    ⟨0.1858014, costdb1_ext_AgO_mol, rfl⟩

/-- Claim C6: the decomposition search is always feasible (the trivial
all-elements solution exists), so the analyzer's explicit
computation-error result is unreachable for every composition with at
least one atom. -/
theorem claim_C6 :
    ∀ (db : CostDB) (t : Comp) (r : CostResult),
      (∀ e, 0 ≤ t e) → (∃ e, t e ≠ 0) →
      AnalyzerReturns db t r → r ≠ CostResult.compError := by
  intro db t r h0 _ hr
  cases hr with
  | value c h => exact fun hh => CostResult.noConfusion hh
  | err h => exact absurd (decomposition_exists h0) h

/-- Witness for C6: costdb1 on AgO returns the optimal value, which is not
the computation error. -/
theorem claim_C6_witness :
    CostResult.value 0.339604 ≠ CostResult.compError :=
  claim_C6 costdb1 AgO (CostResult.value 0.339604) AgO_nonneg
    ⟨Elem.Ag, by rw [show AgO Elem.Ag = 1 from rfl]; exact one_ne_zero⟩
    (AnalyzerReturns.value 0.339604 costdb1_AgO_mol)

/-- Claim C7: with the built-in elemental-only database, the cost per kg of
PtO is strictly greater than the cost per kg of MgO. -/
theorem claim_C7 :
    ∀ cp cm : ℚ, IsCostPerKg CostDBElements PtO cp →
      IsCostPerKg CostDBElements MgO cm → cm < cp := by
  rintro cp cm ⟨a, ha, rfl⟩ ⟨b, hb, rfl⟩
  rw [IsCostPerMol_unique ha costdbElems_PtO_mol,
    IsCostPerMol_unique hb costdbElems_MgO_mol]
  norm_num +decide [molarMassKg, sumOverElems, elemList, atomicMass, PtO, MgO]

/-- Witness for C7: the concrete per-kg costs of PtO and MgO under the
elemental database, compared. -/
theorem claim_C7_witness :
    (0.066947204 / molarMassKg MgO : ℚ) < 5852.530559604 / molarMassKg PtO :=
  claim_C7 (5852.530559604 / molarMassKg PtO) (0.066947204 / molarMassKg MgO)
    ⟨5852.530559604, costdbElems_PtO_mol, rfl⟩
    ⟨0.066947204, costdbElems_MgO_mol, rfl⟩

end CostSpec

namespace VelocitySpec

theorem zip_map_fst_snd (l : List (ℚ × ℚ)) :
    (l.map Prod.fst).zip (l.map Prod.snd) = l := by
  induction l with
  | nil => rfl
  | cons p l ih => simp [ih]

/-- Claim C8: serialization round-trip for `VelocityPhononBandStructure`
(constructed with non-None eigendisplacements): `from_dict (as_dict b)`
reconstructs an object with the same qpoint fractional coordinates, bands,
velocities, reciprocal lattice, label dictionary, and structure, the
structure key being written iff a structure is held and read back iff
present. -/
theorem claim_C8 (b : VelocityPhononBandStructure) :
    VelocityPhononBandStructure.from_dict (VelocityPhononBandStructure.as_dict b) = b := by
  cases b
  simp [VelocityPhononBandStructure.as_dict, VelocityPhononBandStructure.from_dict,
    zip_map_fst_snd]

/-- Witness for C8: round-trip on a concrete band structure with a held
structure value. -/
theorem claim_C8_witness :
    VelocityPhononBandStructure.from_dict
      (VelocityPhononBandStructure.as_dict
        ⟨[[0, 0, 0]], [[1]], [[2]], [[1, 0, 0]], [(1, 2)], [("G", [0, 0, 0])],
          some ⟨["Na"]⟩⟩)
      = ⟨[[0, 0, 0]], [[1]], [[2]], [[1, 0, 0]], [(1, 2)], [("G", [0, 0, 0])],
          some ⟨["Na"]⟩⟩ :=
  claim_C8 ⟨[[0, 0, 0]], [[1]], [[2]], [[1, 0, 0]], [(1, 2)], [("G", [0, 0, 0])],
    some ⟨["Na"]⟩⟩

/-- Claim C9: `VelocityPhononBSPlotter.__init__` raises ValueError for every
argument that is not a `VelocityPhononBandStructureSymmLine` instance (such
as a plain `VelocityPhononBandStructure`), and constructs normally for
every `VelocityPhononBandStructureSymmLine` instance. -/
theorem claim_C9 :
    (∀ b, ∃ msg, VelocityPhononBSPlotter.init (PhononBSObject.plain b)
        = Except.error msg)
      ∧ ∀ s, VelocityPhononBSPlotter.init (PhononBSObject.symmLine s) = Except.ok ⟨s⟩ :=
  ⟨fun _ => ⟨_, rfl⟩, fun _ => rfl⟩

/-- Witness for C9: a plain band structure is rejected and a symmetry-line
band structure is accepted, on concrete instances. -/
theorem claim_C9_witness :
    (∃ msg, VelocityPhononBSPlotter.init
        (PhononBSObject.plain ⟨[], [], [], [], [], [], none⟩) = Except.error msg)
      ∧ VelocityPhononBSPlotter.init
          (PhononBSObject.symmLine ⟨⟨[], [], [], [], [], [], none⟩⟩)
          = Except.ok ⟨⟨⟨[], [], [], [], [], [], none⟩⟩⟩ :=
  ⟨claim_C9.1 ⟨[], [], [], [], [], [], none⟩,
    claim_C9.2 ⟨⟨[], [], [], [], [], [], none⟩⟩⟩

/-- Claim C10: when the flattened frequency and velocity arrays hold exactly
one sample each, the per-point colour computation of
`VelocityPlotter.get_plot` divides by `n = len(ys) - 1 = 0`, so the call
fails with a division-by-zero error instead of returning a plot. -/
theorem claim_C10 (v : Velocity) (factor : ℚ)
    (hx : v.frequencies.flatten.length = 1) (hy : v.velocities.flatten.length = 1) :
    ∃ msg, VelocityPlotter.get_plot v factor = Except.error msg := by
  refine ⟨"ZeroDivisionError: float division by zero", ?_⟩
  unfold VelocityPlotter.get_plot
  have hn : ((v.velocities.flatten.length : ℤ) - 1) = 0 := by
    rw [hy]
    decide
  have hlen : ((v.frequencies.flatten.map (fun x => x * factor)).zip
      v.velocities.flatten).length = 1 := by
    rw [List.length_zip, List.length_map, hx, hy]
    decide
  have hne : ((v.frequencies.flatten.map (fun x => x * factor)).zip
      v.velocities.flatten) ≠ [] := by
    intro hnil
    rw [hnil] at hlen
    exact absurd hlen (by decide)
  rw [if_pos ⟨hn, hne⟩]

/-- Witness for C10: a velocity object with a single flattened frequency
sample and a single flattened velocity sample makes `get_plot` fail. -/
theorem claim_C10_witness :
    ∃ msg, VelocityPlotter.get_plot ⟨[], [[5]], [[7]], none, none, none⟩ 1
      = Except.error msg :=
  claim_C10 ⟨[], [[5]], [[7]], none, none, none⟩ 1 rfl rfl

end VelocitySpec
